import Mathlib

/-!
Verification of the directory sync engine, object store gateway, image digest
generator and configuration code of the pandora image-store CLI
(cmd/sync.go, cmd/config.go, cmd/image.go).

The Go code is shallowly embedded: file system trees become an inductive type,
strings are modelled as Lean strings (byte slicing of ASCII paths becomes
character-list dropping), the S3 network calls become oracles passed in a
`SyncEnv` record, and the concurrent per-entry fan-out of the final
`SyncDirectory` is serialized into a deterministic left-to-right traversal
(the per-file decisions are independent of scheduling order).
-/

/-- Extensions supported by the tool, from the `supportExtensions` map in
cmd/image.go (keys of the Go map). -/
def supportExtensions : List String :=
  ["jpeg", "jpg", "png", "avif", "webp", "gif", "apng", "svg", "bmp"]

/-- Model of Go `strings.LastIndex(s, string(c))` specialised to one-character
needles: index of the last occurrence of `c`, `-1` when absent. -/
def goLastIndex (cs : List Char) (c : Char) : Int :=
  match cs with
  | [] => -1
  | x :: xs =>
    let r := goLastIndex xs c
    if 0 ≤ r then r + 1
    else if x = c then 0
    else -1

/-- Model of the Go slice `s[n:]` (character based; exact for ASCII paths). -/
def goDrop (s : String) (n : Nat) : String :=
  (s.toList.drop n).asString

/-- Model of `strings.ToLower` (character based). -/
def goToLower (s : String) : String :=
  (s.toList.map Char.toLower).asString

/-- `isSupportedImage` from cmd/image.go:
`ext := strings.ToLower(name[strings.LastIndex(name, ".")+1:])` followed by a
lookup in the `supportExtensions` map; returns the lookup result and `ext`. -/
def isSupportedImage (name : String) : Bool × String :=
  let cs := name.toList
  let ext := goToLower (cs.drop ((goLastIndex cs '.' + 1).toNat)).asString
  (decide (ext ∈ supportExtensions), ext)

example : isSupportedImage "a.jpg" = (true, "jpg") := by decide
example : isSupportedImage "A.JPG" = (true, "jpg") := by decide
example : isSupportedImage "png" = (true, "png") := by decide
example : isSupportedImage "README" = (false, "readme") := by decide
example : isSupportedImage "/r/images/a.jpg" = (true, "jpg") := by decide
example : goDrop "/r/images/a.jpg" 3 = "images/a.jpg" := by decide

/-- `ImageMetadata` from cmd/sync.go (the JSON manifest record). -/
structure ImageMetadata where
  path : String
  width : Nat
  height : Nat
  blurDataURL : String
deriving DecidableEq, Repr

/-- `bimg.Options` as filled in by `ReadImageMetadata` (only the fields the
source sets). Dimensions are naturals: bimg never reports negative sizes. -/
structure BimgOptions where
  width : Nat
  height : Nat
  crop : Bool
  quality : Nat
  rotate : Nat
  imgType : String
deriving DecidableEq, Repr

/-- `BlurWidth` constant from cmd/sync.go. -/
def BlurWidth : Nat := 8

/-- The options `ReadImageMetadata` builds for the blur placeholder:
width `BlurWidth`, height `size.Height * BlurWidth / size.Width` (Go integer
division, which truncates; both operands are non-negative). -/
def blurOptions (w h : Nat) : BimgOptions :=
  ⟨BlurWidth, h * BlurWidth / w, false, 1, 0, "WEBP"⟩

/-- `BlurDataFormat` applied by `fmt.Sprintf` in `ReadImageMetadata`. -/
def blurDataFormat (s : String) : String := "data:image/webp;base64," ++ s

/-- Environment of effects used by the sync engine: the project root and
bucket from `PandoraConfig`, the remote listing (`BucketClient.ListObjects`
result per prefix, already folded to key/size pairs), the success of
`BucketClient.UploadObject` per key, and the bimg image library plus base64
encoder as oracles. -/
structure SyncEnv where
  projectRoot : String
  bucket : String
  remoteList : String → List (String × Int)
  uploadOk : String → List Nat → Bool
  imgSize : List Nat → Option (Nat × Nat)
  imgProcess : List Nat → BimgOptions → Option (List Nat)
  base64Enc : List Nat → String

/-- `ReadImageMetadata` from cmd/sync.go: re-checks `isSupportedImage` on the
full `file` path, reads the image size, requests the blur resize and wraps the
base64 of its output in the data-URI format; `path` is the `key` argument. -/
def ReadImageMetadata (env : SyncEnv) (file key : String) (content : List Nat) :
    Option ImageMetadata :=
  if (isSupportedImage file).1 then
    match env.imgSize content with
    | none => none
    | some wh =>
      match env.imgProcess content (blurOptions wh.1 wh.2) with
      | none => none
      | some b => some ⟨key, wh.1, wh.2, blurDataFormat (env.base64Enc b)⟩
  else none

/-- Go map semantics for `awsMetas := map[string]int64{}` built by insertion:
the value of the last insertion of the key, if any. -/
def goMapFind? (l : List (String × Int)) (k : String) : Option Int :=
  match l with
  | [] => none
  | p :: rest =>
    match goMapFind? rest k with
    | some v => some v
    | none => if p.1 = k then some p.2 else none

/-- Go map read `awsMetas[key]`: zero value `0` when the key is absent. -/
def goLookup (l : List (String × Int)) (k : String) : Int :=
  (goMapFind? l k).getD 0

/-- `filepath.Join(directory, name)` for clean inputs. -/
def goJoin (d n : String) : String := d ++ "/" ++ n

/-- `strings.HasPrefix(name, ".")`: the hidden-entry test. -/
def isHiddenName (s : String) : Bool :=
  match s.toList with
  | [] => false
  | c :: _ => decide (c = '.')

/-- A local file-system node as observed through `os.Stat` / `os.ReadDir` /
`os.ReadFile`: either a file with its size and content bytes, or a directory
with its entries. -/
inductive FNode where
  | file (name : String) (size : Int) (content : List Nat)
  | dir (name : String) (entries : List FNode)

/-- The name of a directory entry (`file.Name()` / `stat.Name()`). -/
def FNode.name : FNode → String
  | .file n _ _ => n
  | .dir n _ => n

/-- The metadata tail of the file goroutine body in `SyncDirectory`: guarded
by `isSupportedImage(file.Name())` and calling `ReadImageMetadata` with the
full path and the root-relative key `filename[len(config.ProjectRoot):]`
(which keeps the leading separator). -/
def fileMeta (env : SyncEnv) (filename fname : String) (content : List Nat) :
    List ImageMetadata :=
  if (isSupportedImage fname).1 then
    match ReadImageMetadata env filename (goDrop filename env.projectRoot.length) content with
    | some m => [m]
    | none => []
  else []

/-- The per-file step of the file goroutine in the final `SyncDirectory`
(cmd/sync.go, concurrent version): compute
`key := filename[len(config.ProjectRoot)+1:]`, upload when the local size
differs from `awsMetas[key]`, drop the file on upload failure, and otherwise
produce its image metadata. The first component lists the keys for which
`UploadObject` was invoked. -/
def processFile (env : SyncEnv) (awsMetas : List (String × Int))
    (filename fname : String) (size : Int) (content : List Nat) :
    List String × List ImageMetadata :=
  let key := goDrop filename (env.projectRoot.length + 1)
  if size = goLookup awsMetas key then
    ([], fileMeta env filename fname content)
  else if env.uploadOk key content then
    ([key], fileMeta env filename fname content)
  else
    ([key], [])

mutual

/-- `SyncDirectory` from cmd/sync.go (final, concurrent version), serialized:
stat the directory (skipped when it is a plain file or its own name is
hidden), fetch the remote index for the prefix
`directory[len(config.ProjectRoot):]`, and process each entry, skipping
hidden names, recursing into subdirectories and running `processFile` on
files. Returns the uploaded keys and the aggregated metadata. -/
def syncNode (env : SyncEnv) (directory : String) (node : FNode) :
    List String × List ImageMetadata :=
  match node with
  | .file _ _ _ => ([], [])
  | .dir name entries =>
    if isHiddenName name then ([], [])
    else syncEntries env directory (env.remoteList (goDrop directory env.projectRoot.length)) entries

/-- The entry loop of `SyncDirectory` over the `os.ReadDir` listing of
`directory`, with the directory's remote index `awsMetas`. -/
def syncEntries (env : SyncEnv) (directory : String) (awsMetas : List (String × Int)) :
    List FNode → List String × List ImageMetadata
  | [] => ([], [])
  | FNode.file n sz c :: rest =>
    let r := if isHiddenName n then ([], []) else processFile env awsMetas (goJoin directory n) n sz c
    let rs := syncEntries env directory awsMetas rest
    (r.1 ++ rs.1, r.2 ++ rs.2)
  | FNode.dir n es :: rest =>
    let r := if isHiddenName n then ([], []) else syncNode env (goJoin directory n) (FNode.dir n es)
    let rs := syncEntries env directory awsMetas rest
    (r.1 ++ rs.1, r.2 ++ rs.2)

end

/-- Concatenation of the images of `f` over a list (used to state what the
traversal aggregates). -/
def concatMap (f : α → List β) : List α → List β
  | [] => []
  | a :: as => f a ++ concatMap f as

/-- A file reachable by the traversal: the directory path the engine visits it
under, its entry name, its size and its content. -/
structure VFile where
  dir : String
  fname : String
  size : Int
  content : List Nat
deriving DecidableEq, Repr

mutual

/-- Specification-side collector: the non-hidden files the engine visits in a
tree, with the directory path each one is visited under. -/
def visibleFiles (directory : String) (node : FNode) : List VFile :=
  match node with
  | .file _ _ _ => []
  | .dir name entries =>
    if isHiddenName name then [] else visibleFilesList directory entries

def visibleFilesList (directory : String) : List FNode → List VFile
  | [] => []
  | FNode.file n sz c :: rest =>
    (if isHiddenName n then [] else [⟨directory, n, sz, c⟩]) ++ visibleFilesList directory rest
  | FNode.dir n es :: rest =>
    (if isHiddenName n then [] else visibleFiles (goJoin directory n) (FNode.dir n es)) ++
      visibleFilesList directory rest

end

/-- The full local path of a visited file. -/
def vfFilename (t : VFile) : String := goJoin t.dir t.fname

/-- The object key the engine uses for a visited file: its full path with the
project root and the following separator character removed. -/
def vfKey (env : SyncEnv) (t : VFile) : String :=
  goDrop (vfFilename t) (env.projectRoot.length + 1)

/-- The remote index the engine consults for a visited file: the listing of
its directory's root-relative prefix (which keeps the leading separator). -/
def vfIdx (env : SyncEnv) (t : VFile) : List (String × Int) :=
  env.remoteList (goDrop t.dir env.projectRoot.length)

/-- The keys `processFile` uploads for a visited file: its key exactly when
the local size differs from the indexed size (`0` when absent). -/
def vfUpload (env : SyncEnv) (t : VFile) : List String :=
  if t.size = goLookup (vfIdx env t) (vfKey env t) then [] else [vfKey env t]

/-- The metadata `processFile` emits for a visited file: nothing when a
required upload fails, otherwise whatever `fileMeta` produces. -/
def vfMeta (env : SyncEnv) (t : VFile) : List ImageMetadata :=
  if t.size = goLookup (vfIdx env t) (vfKey env t) then
    fileMeta env (vfFilename t) t.fname t.content
  else if env.uploadOk (vfKey env t) t.content then
    fileMeta env (vfFilename t) t.fname t.content
  else []

mutual

/-- Removal of every hidden-named entry from a tree (at every depth). -/
def prune : FNode → FNode
  | .file n sz c => .file n sz c
  | .dir n es => .dir n (pruneList es)

def pruneList : List FNode → List FNode
  | [] => []
  | e :: rest => (if isHiddenName e.name then [] else [prune e]) ++ pruneList rest

end

theorem concatMap_append (f : α → List β) (l1 l2 : List α) :
    concatMap f (l1 ++ l2) = concatMap f l1 ++ concatMap f l2 := by
  induction l1 with
  | nil => simp [concatMap]
  | cons a as ih => simp [concatMap, ih]

theorem processFile_eq (env : SyncEnv) (t : VFile) :
    processFile env (vfIdx env t) (vfFilename t) t.fname t.size t.content =
      (vfUpload env t, vfMeta env t) := by
  unfold processFile vfUpload vfMeta vfKey
  by_cases h : t.size = goLookup (vfIdx env t) (goDrop (vfFilename t) (env.projectRoot.length + 1))
  · simp [h]
  · by_cases h2 : env.uploadOk (goDrop (vfFilename t) (env.projectRoot.length + 1)) t.content
    · simp [h, h2]
    · simp [h, h2]

theorem sync_spec_aux (env : SyncEnv) :
    ∀ k : Nat,
      (∀ (d : String) (n : FNode), sizeOf n ≤ k →
        syncNode env d n =
          (concatMap (vfUpload env) (visibleFiles d n),
           concatMap (vfMeta env) (visibleFiles d n))) ∧
      (∀ (d : String) (l : List FNode), sizeOf l ≤ k →
        syncEntries env d (env.remoteList (goDrop d env.projectRoot.length)) l =
          (concatMap (vfUpload env) (visibleFilesList d l),
           concatMap (vfMeta env) (visibleFilesList d l))) := by
  intro k
  induction k with
  | zero =>
    constructor
    · intro d n h; cases n <;> simp at h
    · intro d l h; cases l <;> simp at h
  | succ k ih =>
    constructor
    · intro d n h
      cases n with
      | file nm sz c => simp [syncNode, visibleFiles, concatMap]
      | dir nm entries =>
        by_cases hh : isHiddenName nm
        · simp [syncNode, visibleFiles, hh, concatMap]
        · have hsz : sizeOf entries ≤ k := by simp at h; omega
          simp [syncNode, visibleFiles, hh, ih.2 d entries hsz]
    · intro d l h
      cases l with
      | nil => simp [syncEntries, visibleFilesList, concatMap]
      | cons e rest =>
        have hrest : sizeOf rest ≤ k := by cases e <;> simp at h <;> omega
        cases e with
        | file nm sz c =>
          by_cases hh : isHiddenName nm
          · simp [syncEntries, visibleFilesList, hh, concatMap, ih.2 d rest hrest]
          · have hp := processFile_eq env ⟨d, nm, sz, c⟩
            simp [vfFilename, vfIdx] at hp
            simp [syncEntries, visibleFilesList, hh, concatMap, concatMap_append,
              ih.2 d rest hrest, hp]
        | dir nm es =>
          have he : sizeOf (FNode.dir nm es) ≤ k := by simp at h ⊢; omega
          by_cases hh : isHiddenName nm
          · simp [syncEntries, visibleFilesList, hh, concatMap, ih.2 d rest hrest]
          · simp [syncEntries, visibleFilesList, hh, concatMap_append,
              ih.2 d rest hrest, ih.1 (goJoin d nm) (FNode.dir nm es) he]

/-- Master characterization of the serialized `SyncDirectory`: the uploaded
keys and the emitted metadata are exactly the per-file upload decision and
metadata step applied to each non-hidden file the traversal visits. -/
theorem syncNode_spec (env : SyncEnv) (d : String) (n : FNode) :
    syncNode env d n =
      (concatMap (vfUpload env) (visibleFiles d n),
       concatMap (vfMeta env) (visibleFiles d n)) :=
  (sync_spec_aux env (sizeOf n)).1 d n le_rfl

/-- A raw error from the S3 SDK, as far as the gateway inspects it: whether
`errors.As(err, &noBucket)` matches (`types.NoSuchBucket`), and the API error
code checked by `apiErr.ErrorCode()`. -/
structure S3ApiError where
  noBucketMatch : Bool
  code : String
deriving DecidableEq, Repr

/-- The error value a gateway call returns: the raw SDK error, the typed
`NoSuchBucket` substituted by `errors.As`, or the `fmt.Errorf` wrapper around
the first object-level deletion error message. -/
inductive GoErr where
  | api (e : S3ApiError)
  | noSuchBucket
  | objectMsg (msg : String)
deriving DecidableEq, Repr

/-- The log lines the gateway writes (only their identity matters here). -/
inductive GoLog where
  | objectTooLarge (bucket : String)
  | uploadFailed (bucket key : String)
  | waitExistsFailed (key : String)
  | bucketMissing (bucket : String)
  | deleteFailed (bucket : String)
  | objectErr (key msg : String)
  | waitGoneFailed (key : String)
  | deletedOk (key : String)
deriving DecidableEq, Repr

/-- `BucketClient.UploadObject` from cmd/sync.go, with the `PutObject` call
and the `ObjectExistsWaiter.Wait` call as oracles (`none` = success): on put
failure log `EntityTooLarge` specially, otherwise run the waiter, log its
failure, and return whatever `err` last held. -/
def UploadObject (bucketName objectKey : String)
    (putRes waitRes : Option S3ApiError) : Option S3ApiError × List GoLog :=
  match putRes with
  | some e =>
    if e.code = "EntityTooLarge" then (some e, [GoLog.objectTooLarge bucketName])
    else (some e, [GoLog.uploadFailed bucketName objectKey])
  | none =>
    match waitRes with
    | none => (none, [])
    | some e => (some e, [GoLog.waitExistsFailed objectKey])

/-- `BucketClient.ListObjects` from cmd/sync.go: the paginator is modelled as
the sequence of `NextPage` results; the loop accumulates `output.Contents`
and breaks on the first page error, substituting the typed `NoSuchBucket`
when `errors.As` matches. -/
def ListObjects (pages : List (Except S3ApiError (List (String × Int)))) :
    List (String × Int) × Option GoErr :=
  match pages with
  | [] => ([], none)
  | .error e :: _ =>
    ([], some (if e.noBucketMatch then GoErr.noSuchBucket else GoErr.api e))
  | .ok os :: rest =>
    let r := ListObjects rest
    (os ++ r.1, r.2)

/-- The `DeleteObjects` response body: per-object errors (key, message) and
the list of deleted keys. -/
structure DeleteOutput where
  errors : List (String × String)
  deleted : List String
deriving DecidableEq, Repr

/-- `BucketClient.DeleteObjects` from cmd/sync.go, with the batch call and
the per-key `ObjectNotExistsWaiter.Wait` as oracles: on a batch error,
classify `NoSuchBucket`; on per-object errors, return the first message; else
loop the waiter over `output.Deleted`, reassigning `err` each iteration, and
return whatever `err` last held. -/
def DeleteObjects (bucketName : String)
    (batchRes : Except S3ApiError DeleteOutput)
    (waitRes : String → Option S3ApiError) : Option GoErr × List GoLog :=
  match batchRes with
  | .error e =>
    if e.noBucketMatch then
      (some GoErr.noSuchBucket, [GoLog.deleteFailed bucketName, GoLog.bucketMissing bucketName])
    else (some (GoErr.api e), [GoLog.deleteFailed bucketName])
  | .ok out =>
    match out.errors with
    | (k, m) :: restErr =>
      (some (GoErr.objectMsg m),
       GoLog.deleteFailed bucketName ::
         ((k, m) :: restErr).map (fun p => GoLog.objectErr p.1 p.2))
    | [] =>
      (out.deleted.foldl (fun _ k => (waitRes k).map GoErr.api) none,
       out.deleted.map (fun k =>
         if (waitRes k).isSome then GoLog.waitGoneFailed k else GoLog.deletedOk k))

/-- The S3 section of `PandoraConfig` (cmd/config.go). -/
structure S3Config where
  region : String
  endpoint : String
  bucket : String
  accessKey : String
  accessSecretKey : String
deriving DecidableEq, Repr

/-- `aws.Credentials` as far as `Retrieve` fills it. -/
structure AwsCredentials where
  accessKeyID : String
  secretAccessKey : String
deriving DecidableEq, Repr

/-- `PandoraConfig` (cmd/config.go); only the fields `Retrieve` reads plus the
project root are modelled. -/
structure PandoraConfig where
  projectRoot : String
  s3 : S3Config
deriving DecidableEq, Repr

/-- `PandoraConfig.Retrieve` from cmd/config.go: fail when either credential
string is empty, otherwise return them verbatim. -/
def PandoraConfig.Retrieve (c : PandoraConfig) : Except String AwsCredentials :=
  if c.s3.accessKey = "" ∨ c.s3.accessSecretKey = "" then
    .error "no accessKey or AccessSecretKey is provided"
  else
    .ok ⟨c.s3.accessKey, c.s3.accessSecretKey⟩

/-- Whether `Retrieve` succeeded. -/
def retrieveOk (c : PandoraConfig) : Bool :=
  match c.Retrieve with
  | .ok _ => true
  | .error _ => false

theorem concatMap_eq_nil (f : α → List β) (l : List α) (h : ∀ x ∈ l, f x = []) :
    concatMap f l = [] := by
  induction l with
  | nil => rfl
  | cons a as ih =>
    simp [concatMap, h a (List.mem_cons_self a as),
      ih (fun x hx => h x (List.mem_cons_of_mem a hx))]

theorem concatMap_congr (f g : α → List β) (l : List α) (h : ∀ x ∈ l, f x = g x) :
    concatMap f l = concatMap g l := by
  induction l with
  | nil => rfl
  | cons a as ih =>
    simp [concatMap, h a (List.mem_cons_self a as),
      ih (fun x hx => h x (List.mem_cons_of_mem a hx))]

/-- An environment used as a counterexample carrier: project root `/r`, empty
remote listings, uploads succeed, no decodable images. -/
def envA : SyncEnv :=
  ⟨"/r", "b", fun _ => [], fun _ _ => true, fun _ => none, fun _ _ => none, fun _ => ""⟩

/-- C1 (counterexample): the claim reads an absent key as size `-1`, so a
zero-byte local file absent from the index would always be mismatched and
uploaded; the code reads the Go zero value `0`, so for the empty file `z`
(size `0`, key absent) no upload happens while the claim's criterion says it
must: the stated equivalence fails at this input. -/
theorem upload_absent_key_claim_cex :
    ¬ (((processFile envA [] "/r/images/z" "z" 0 []).1 ≠ []) ↔
        (0 : Int) ≠ ((goMapFind? [] (goDrop "/r/images/z" (envA.projectRoot.length + 1))).getD (-1))) := by
  decide

/-- C1 (amended): a visited file is uploaded exactly once per run and exactly
when its local size differs from the size the remote index records for its
object key, an absent key being read as the Go zero value `0` (hence a
zero-size absent file is not uploaded); equal sizes never upload. -/
theorem sync_upload_decision (env : SyncEnv) (d : String) (n : FNode) :
    (syncNode env d n).1 = concatMap (vfUpload env) (visibleFiles d n) := by
  rw [syncNode_spec]

/-- The remote listing a second run observes in the idempotence witness. -/
def rlW : String → List (String × Int) := fun _ => [("images/a.txt", 5)]

/-- An environment identical to `env` except for the remote listing (what a
later sync run observes after the first run's uploads landed). -/
def withRemote (env : SyncEnv) (rl : String → List (String × Int)) : SyncEnv :=
  ⟨env.projectRoot, env.bucket, rl, env.uploadOk, env.imgSize, env.imgProcess, env.base64Enc⟩

/-- C2: when every upload of the first run succeeded and the second run's
remote index reports each previously uploaded key at its local size while
agreeing with the old index elsewhere, the second run uploads nothing and
returns exactly the first run's metadata sequence (hence the serialized
manifest is byte-identical); the key compared against the index is the same
string the first run uploaded under. -/
theorem sync_second_run_idempotent (env : SyncEnv) (rl2 : String → List (String × Int))
    (d : String) (n : FNode)
    (hup : ∀ k c, env.uploadOk k c = true)
    (hidx : ∀ t ∈ visibleFiles d n,
      goLookup (rl2 (goDrop t.dir env.projectRoot.length)) (vfKey env t) =
        if t.size = goLookup (vfIdx env t) (vfKey env t) then
          goLookup (vfIdx env t) (vfKey env t)
        else t.size) :
    syncNode (withRemote env rl2) d n = ([], (syncNode env d n).2) := by
  rw [syncNode_spec, syncNode_spec]
  have hmatch : ∀ t ∈ visibleFiles d n,
      t.size = goLookup (vfIdx (withRemote env rl2) t) (vfKey (withRemote env rl2) t) := by
    intro t ht
    show t.size = goLookup (rl2 (goDrop t.dir env.projectRoot.length)) (vfKey env t)
    rw [hidx t ht]
    by_cases hc : t.size = goLookup (vfIdx env t) (vfKey env t)
    · simp [hc]
    · simp [hc]
  have h1 : concatMap (vfUpload (withRemote env rl2)) (visibleFiles d n) = [] := by
    refine concatMap_eq_nil _ _ (fun t ht => ?_)
    simp only [vfUpload]
    rw [if_pos (hmatch t ht)]
  have h2 : concatMap (vfMeta (withRemote env rl2)) (visibleFiles d n) =
      concatMap (vfMeta env) (visibleFiles d n) := by
    refine concatMap_congr _ _ _ (fun t ht => ?_)
    have hfm : fileMeta (withRemote env rl2) (vfFilename t) t.fname t.content =
        fileMeta env (vfFilename t) t.fname t.content := rfl
    simp only [vfMeta]
    rw [if_pos (hmatch t ht), hfm]
    by_cases hc : t.size = goLookup (vfIdx env t) (vfKey env t)
    · rw [if_pos hc]
    · rw [if_neg hc, if_pos (hup _ _)]
  simp only [Prod.mk.injEq]
  exact ⟨h1, h2⟩

theorem sync_second_run_idempotent_witness :
    (∀ k c, envA.uploadOk k c = true) ∧
    (∀ t ∈ visibleFiles "/r/images" (FNode.dir "images" [FNode.file "a.txt" 5 [1, 2]]),
      goLookup (rlW (goDrop t.dir envA.projectRoot.length)) (vfKey envA t) =
        if t.size = goLookup (vfIdx envA t) (vfKey envA t) then
          goLookup (vfIdx envA t) (vfKey envA t)
        else t.size) ∧
    syncNode (withRemote envA rlW) "/r/images" (FNode.dir "images" [FNode.file "a.txt" 5 [1, 2]]) =
      ([], (syncNode envA "/r/images" (FNode.dir "images" [FNode.file "a.txt" 5 [1, 2]])).2) :=
  ⟨fun _ _ => rfl, by decide,
   sync_second_run_idempotent envA rlW "/r/images" (FNode.dir "images" [FNode.file "a.txt" 5 [1, 2]])
     (fun _ _ => rfl) (by decide)⟩

theorem visibleFiles_prune_aux :
    ∀ k : Nat,
      (∀ (d : String) (n : FNode), sizeOf n ≤ k →
        visibleFiles d (prune n) = visibleFiles d n) ∧
      (∀ (d : String) (l : List FNode), sizeOf l ≤ k →
        visibleFilesList d (pruneList l) = visibleFilesList d l) := by
  intro k
  induction k with
  | zero =>
    constructor
    · intro d n h; cases n <;> simp at h
    · intro d l h; cases l <;> simp at h
  | succ k ih =>
    constructor
    · intro d n h
      cases n with
      | file nm sz c => simp [prune, visibleFiles]
      | dir nm entries =>
        by_cases hh : isHiddenName nm
        · simp [prune, visibleFiles, hh]
        · have hsz : sizeOf entries ≤ k := by simp at h; omega
          simp [prune, visibleFiles, hh, ih.2 d entries hsz]
    · intro d l h
      cases l with
      | nil => simp [pruneList]
      | cons e rest =>
        have hrest : sizeOf rest ≤ k := by cases e <;> simp at h <;> omega
        cases e with
        | file nm sz c =>
          by_cases hh : isHiddenName nm
          · simp [pruneList, visibleFilesList, FNode.name, hh, prune, ih.2 d rest hrest]
          · simp [pruneList, visibleFilesList, FNode.name, hh, prune, ih.2 d rest hrest]
        | dir nm es =>
          have he : sizeOf (FNode.dir nm es) ≤ k := by simp at h ⊢; omega
          by_cases hh : isHiddenName nm
          · simp [pruneList, visibleFilesList, FNode.name, hh, prune, ih.2 d rest hrest]
          · have h1 := ih.1 (goJoin d nm) (FNode.dir nm es) he
            simp only [prune] at h1
            simp [pruneList, visibleFilesList, FNode.name, hh, prune, ih.2 d rest hrest, h1]

theorem visibleFiles_prune (d : String) (n : FNode) :
    visibleFiles d (prune n) = visibleFiles d n :=
  (visibleFiles_prune_aux (sizeOf n)).1 d n le_rfl

/-- C5: removing every hidden-named (dot-leading) entry anywhere in the tree
leaves the sync result unchanged — hidden files and directories are never
uploaded, never recursed into and contribute no metadata, whatever their
content — and a directory whose own name is hidden yields nothing at all. -/
theorem sync_hidden_excluded :
    (∀ (env : SyncEnv) (d : String) (n : FNode),
      syncNode env d (prune n) = syncNode env d n) ∧
    (∀ (env : SyncEnv) (d name : String) (es : List FNode),
      isHiddenName name = true → syncNode env d (FNode.dir name es) = ([], [])) := by
  constructor
  · intro env d n
    rw [syncNode_spec, syncNode_spec, visibleFiles_prune]
  · intro env d name es h
    simp [syncNode, h]

theorem sync_hidden_excluded_witness :
    isHiddenName ".git" = true ∧
    syncNode envA "/r/images" (FNode.dir ".git" [FNode.file "a.jpg" 7 [1]]) = ([], []) :=
  ⟨by decide,
   sync_hidden_excluded.2 envA "/r/images" ".git" [FNode.file "a.jpg" 7 [1]] (by decide)⟩

/-- An environment whose image oracles always succeed: every content decodes
to a 100 by 50 image and the blur pipeline yields the base64 text `B`. -/
def envB : SyncEnv :=
  ⟨"/r", "b", fun _ => [], fun _ _ => true, fun _ => some (100, 50),
   fun _ _ => some [0], fun _ => "B"⟩

/-- C4 (code bug): with project root `/r` and the file `images/a.jpg`
(size 500, absent remotely), the engine uploads under the key
`images/a.jpg` — `filename[len(root)+1:]` — but the emitted `ImageMetadata`
carries `path` `/images/a.jpg` — `filename[len(root):]`, keeping the leading
separator — so the manifest path is not the object key the file was uploaded
under. -/
theorem meta_path_differs_from_upload_key :
    syncNode envB "/r/images" (FNode.dir "images" [FNode.file "a.jpg" 500 [1]]) =
      (["images/a.jpg"], [⟨"/images/a.jpg", 100, 50, "data:image/webp;base64,B"⟩]) ∧
    ¬ ("/images/a.jpg" = "images/a.jpg") := by
  constructor
  · decide
  · decide

/-- C3 (counterexample): `PutObject` succeeds but the existence-confirmation
wait fails; `UploadObject` reassigns `err` to the waiter's error and returns
it, so the successful write is reported as a failure, contrary to the claim
that confirmation failure is only logged. -/
theorem upload_wait_error_returned_cex :
    ¬ ((UploadObject "b" "k" none (some ⟨false, "Timeout"⟩)).1 = none) := by
  decide

/-- C3 (amended): `UploadObject` returns success exactly when both the put and
the subsequent existence wait succeed; a wait failure after a successful put
is logged and also returned as the call's error. -/
theorem upload_success_iff_put_and_wait :
    ∀ (b k : String) (putRes waitRes : Option S3ApiError) (e : S3ApiError),
      ((UploadObject b k putRes waitRes).1 = none ↔ putRes = none ∧ waitRes = none) ∧
      UploadObject b k none (some e) = (some e, [GoLog.waitExistsFailed k]) := by
  intro b k putRes waitRes e
  constructor
  · cases putRes with
    | some e2 =>
      by_cases hc : e2.code = "EntityTooLarge" <;> simp [UploadObject, hc]
    | none => cases waitRes <;> simp [UploadObject]
  · rfl

/-- C6 (counterexample): for an image of width 3 and height 1 the code
requests blur height `1 * 8 / 3 = 2` (Go integer division truncates), while
the claim's `round(h * 8 / w)` is `3`. -/
theorem blur_height_not_round_cex :
    ((blurOptions 3 1).height : ℤ) ≠ round (((1 : ℚ) * 8) / 3) := by
  have h2 : round (((1 : ℚ) * 8) / 3) = 3 := by norm_num [round_eq]
  rw [h2]
  decide

/-- C6 (amended): for original width `w > 0` and height `h`, the blur resize
requested by `ReadImageMetadata` uses target width 8 and target height
`floor(h * 8 / w)` (truncating integer division), not the rounded value. -/
theorem blur_height_is_floor (w h : Nat) (hw : 0 < w) :
    (blurOptions w h).width = 8 ∧
    ((blurOptions w h).height : ℤ) = ⌊((h : ℚ) * 8) / w⌋ := by
  refine ⟨rfl, ?_⟩
  have h1 : (((h * 8 : ℕ) : ℚ)) = (h : ℚ) * 8 := by push_cast; ring
  have h2 : ⌊((h : ℚ) * 8) / w⌋ = (⌊((h : ℚ) * 8) / w⌋₊ : ℤ) := by
    rw [Int.natCast_floor_eq_floor]
    positivity
  rw [h2, ← h1, Nat.floor_div_eq_div]
  simp [blurOptions, BlurWidth]

theorem blur_height_is_floor_witness :
    0 < 3 ∧ ((blurOptions 3 1).width = 8 ∧ ((blurOptions 3 1).height : ℤ) = ⌊((1 : ℚ) * 8) / 3⌋) :=
  ⟨by decide, blur_height_is_floor 3 1 (by decide)⟩

theorem toList_asString (l : List Char) : l.asString.toList = l := rfl

theorem takeWhile_append_all (p : α → Bool) (l1 l2 : List α) (h : ∀ x ∈ l1, p x = true) :
    (l1 ++ l2).takeWhile p = l1 ++ l2.takeWhile p := by
  induction l1 with
  | nil => simp
  | cons a as ih =>
    simp [List.takeWhile_cons, h a (List.mem_cons_self a as),
      ih (fun x hx => h x (List.mem_cons_of_mem a hx))]

theorem takeWhile_append_stop (p : α → Bool) (l1 l2 : List α)
    (h : ∃ x ∈ l1, p x = false) : (l1 ++ l2).takeWhile p = l1.takeWhile p := by
  induction l1 with
  | nil => simp at h
  | cons a as ih =>
    by_cases ha : p a
    · have h2 : ∃ x ∈ as, p x = false := by
        rcases h with ⟨x, hx, hpx⟩
        rcases List.mem_cons.mp hx with rfl | hx2
        · rw [ha] at hpx; cases hpx
        · exact ⟨x, hx2, hpx⟩
      simp [List.takeWhile_cons, ha, ih h2]
    · simp [List.takeWhile_cons, Bool.of_not_eq_true ha]

theorem goLastIndex_nonneg_iff (l : List Char) (c : Char) :
    0 ≤ goLastIndex l c ↔ c ∈ l := by
  induction l with
  | nil => simp [goLastIndex]
  | cons a as ih =>
    simp only [goLastIndex, List.mem_cons]
    by_cases h : 0 ≤ goLastIndex as c
    · simp [h, ih.mp h]
      omega
    · simp only [if_neg h]
      by_cases ha : a = c
      · simp [ha]
      · simp [ha, Ne.symm ha]
        exact fun h2 => h (ih.mpr h2)

theorem afterDot_eq (l : List Char) :
    l.drop ((goLastIndex l '.' + 1).toNat) =
      (l.reverse.takeWhile (fun c => c != '.')).reverse := by
  induction l with
  | nil => simp [goLastIndex]
  | cons a as ih =>
    by_cases hm : '.' ∈ as
    · have hr : 0 ≤ goLastIndex as '.' := (goLastIndex_nonneg_iff as '.').mpr hm
      have h1 : goLastIndex (a :: as) '.' = goLastIndex as '.' + 1 := by
        simp [goLastIndex, hr]
      have h2 : (goLastIndex as '.' + 1 + 1).toNat = (goLastIndex as '.' + 1).toNat + 1 := by
        omega
      have h3 : List.takeWhile (fun c => c != '.') (as.reverse ++ [a]) =
          List.takeWhile (fun c => c != '.') as.reverse := by
        refine takeWhile_append_stop _ _ _ ⟨'.', by simp [hm], by simp⟩
      rw [h1, h2, List.drop_succ_cons, ih, List.reverse_cons, h3]
    · have hr : ¬ 0 ≤ goLastIndex as '.' := fun h => hm ((goLastIndex_nonneg_iff as '.').mp h)
      have hall : ∀ x ∈ as.reverse, (fun c => c != '.') x = true := by
        intro x hx
        simp only [bne_iff_ne, ne_eq, decide_eq_true_eq]
        intro hh
        exact hm (by simpa [hh] using (List.mem_reverse.mp hx))
      by_cases ha : a = '.'
      · have h1 : goLastIndex (a :: as) '.' = 0 := by simp [goLastIndex, hr, ha]
        rw [h1, List.reverse_cons, takeWhile_append_all _ _ _ hall]
        simp [ha, List.takeWhile_cons]
      · have h1 : goLastIndex (a :: as) '.' = -1 := by simp [goLastIndex, hr, ha]
        rw [h1, List.reverse_cons, takeWhile_append_all _ _ _ hall]
        simp [List.takeWhile_cons, ha]

theorem slash_not_supported (l : List Char) (h : '/' ∈ l) :
    l.asString ∈ supportExtensions → False := by
  intro hmem
  simp only [supportExtensions, List.mem_cons, List.not_mem_nil, or_false] at hmem
  rcases hmem with h1 | h1 | h1 | h1 | h1 | h1 | h1 | h1 | h1 <;>
    (have h2 := congrArg String.toList h1; rw [toList_asString] at h2; subst h2;
     exact absurd h (by decide))

/-- The text after the last dot of a name — the whole name when there is no
dot — lowercased; computed by the specification's description (scan from the
right) rather than the source's index arithmetic. -/
def extAfterLastDot (name : String) : String :=
  (((name.toList.reverse.takeWhile (fun c => c != '.')).reverse).map Char.toLower).asString

/-- The supported-image criterion exactly as the claim words it: accept when
the name has a dot and the text after its last dot, lowercased, is in the
supported set (a dotless name has no such text and is rejected). -/
def claimSupported (name : String) : Bool :=
  if '.' ∈ name.toList then decide (extAfterLastDot name ∈ supportExtensions) else false

theorem supported_image_claim_cex :
    ¬ ((isSupportedImage "png").1 = claimSupported "png") := by decide

theorem isSupportedImage_eq_ext (name : String) :
    (isSupportedImage name).1 = decide (extAfterLastDot name ∈ supportExtensions) := by
  simp only [isSupportedImage, goToLower, extAfterLastDot, toList_asString, afterDot_eq]

theorem goJoin_not_supported (d fname : String) (h : '.' ∉ fname.toList) :
    (isSupportedImage (goJoin d fname)).1 = false := by
  rw [isSupportedImage_eq_ext]
  apply decide_eq_false
  intro hmem
  simp only [extAfterLastDot] at hmem
  refine slash_not_supported _ ?_ hmem
  have htl : (goJoin d fname).toList = d.toList ++ '/' :: fname.toList := by
    simp [goJoin]
  have hall : ∀ x ∈ fname.toList.reverse, (fun c => c != '.') x = true := by
    intro x hx
    simp only [bne_iff_ne, ne_eq, decide_eq_true_eq]
    intro hh
    exact h (by simpa [hh] using List.mem_reverse.mp hx)
  have htw : List.takeWhile (fun c => c != '.') (goJoin d fname).toList.reverse =
      fname.toList.reverse ++ '/' :: List.takeWhile (fun c => c != '.') d.toList.reverse := by
    rw [htl]
    simp only [List.reverse_append, List.reverse_cons]
    rw [show (fname.toList.reverse ++ ['/'] ++ d.toList.reverse) =
        (fname.toList.reverse ++ ('/' :: d.toList.reverse)) by simp,
      takeWhile_append_all _ _ _ hall]
    simp [List.takeWhile_cons]
  rw [htw]
  refine List.mem_map.mpr ⟨'/', ?_, by decide⟩
  simp

theorem dotless_no_metadata (env : SyncEnv) (idx : List (String × Int)) (d fname : String)
    (sz : Int) (c : List Nat) (h : '.' ∉ fname.toList) :
    (processFile env idx (goJoin d fname) fname sz c).2 = [] := by
  have hri : ReadImageMetadata env (goJoin d fname)
      (goDrop (goJoin d fname) env.projectRoot.length) c = none := by
    simp [ReadImageMetadata, goJoin_not_supported d fname h]
  have hfm : fileMeta env (goJoin d fname) fname c = [] := by
    simp only [fileMeta, hri]
    split <;> rfl
  simp only [processFile, hfm]
  split
  · rfl
  · split <;> rfl

/-- C7 (amended): the supported-image test accepts a filename exactly when the
text after its last dot — read as the whole name when there is no dot —
lowercased, is in the supported set (so the dotless name `png` is accepted);
nevertheless a file whose name has no dot never produces an `ImageMetadata`
entry, because the digest step re-checks the full path, whose extension then
contains the path separator; and the upload decision is the size comparison
alone, independent of the extension. -/
theorem supported_image_characterization :
    (∀ name : String,
      (isSupportedImage name).1 = decide (extAfterLastDot name ∈ supportExtensions)) ∧
    (∀ (env : SyncEnv) (idx : List (String × Int)) (d fname : String) (sz : Int) (c : List Nat),
      '.' ∉ fname.toList → (processFile env idx (goJoin d fname) fname sz c).2 = []) ∧
    (∀ (env : SyncEnv) (idx : List (String × Int)) (filename fname : String) (sz : Int) (c : List Nat),
      (processFile env idx filename fname sz c).1 =
        if sz = goLookup idx (goDrop filename (env.projectRoot.length + 1)) then []
        else [goDrop filename (env.projectRoot.length + 1)]) := by
  refine ⟨isSupportedImage_eq_ext, fun env idx d fname sz c h => dotless_no_metadata env idx d fname sz c h, ?_⟩
  intro env idx filename fname sz c
  simp only [processFile]
  by_cases h1 : sz = goLookup idx (goDrop filename (env.projectRoot.length + 1))
  · simp [h1]
  · by_cases h2 : env.uploadOk (goDrop filename (env.projectRoot.length + 1)) c <;>
      simp [h1, h2]

theorem supported_image_characterization_witness :
    ('.' ∉ "png".toList) ∧
    (processFile envA [] (goJoin "/r/images" "png") "png" 3 [1]).2 = [] :=
  ⟨by decide,
   supported_image_characterization.2.1 envA [] "/r/images" "png" 3 [1] (by decide)⟩

/-- Specification side for C8: the concatenation of the pages the paginator
yields before its first error. -/
def okPages (pages : List (Except S3ApiError (List (String × Int)))) : List (String × Int) :=
  concatMap (fun p => match p with | .ok os => os | .error _ => [])
    (pages.takeWhile (fun p => match p with | .ok _ => true | .error _ => false))

/-- Specification side for C8: the first page error, if any. -/
def firstPageErr (pages : List (Except S3ApiError (List (String × Int)))) : Option S3ApiError :=
  pages.findSome? (fun p => match p with | .error e => some e | .ok _ => none)

/-- C8: `ListObjects` accumulates pages until pagination is exhausted or a
page fails, stops at the first failing page, classifies a matching error as
the typed `NoSuchBucket`, and on failure returns everything accumulated from
the earlier pages together with the (classified) first error. -/
theorem list_objects_paginates_until_error
    (pages : List (Except S3ApiError (List (String × Int)))) :
    ListObjects pages =
      (okPages pages,
       (firstPageErr pages).map
         (fun e => if e.noBucketMatch then GoErr.noSuchBucket else GoErr.api e)) := by
  induction pages with
  | nil => rfl
  | cons p rest ih =>
    cases p with
    | error e => simp [ListObjects, okPages, firstPageErr, concatMap]
    | ok os =>
      simp only [ListObjects, okPages, firstPageErr, List.takeWhile_cons, List.findSome?_cons,
        concatMap] at ih ⊢
      simp [ih]

/-- The return value of `foldl` with an accumulator-ignoring function is
determined by the last element. -/
theorem foldl_const_last (f : α → β) (i : β) (l : List α) :
    l.foldl (fun _ k => f k) i = (match l.getLast? with | none => i | some k => f k) := by
  induction l generalizing i with
  | nil => rfl
  | cons a as ih =>
    cases as with
    | nil => rfl
    | cons b bs => simpa [List.foldl_cons, List.getLast?_cons_cons] using ih (f a)

/-- Specification side for C9 (amended): classify a batch error as
`NoSuchBucket` when matched; surface the first object-level message;
otherwise return the existence-negation wait result of the last deleted key
(earlier keys' wait failures are only logged). -/
def deleteErrSpec (batchRes : Except S3ApiError DeleteOutput)
    (waitRes : String → Option S3ApiError) : Option GoErr :=
  match batchRes with
  | .error e => some (if e.noBucketMatch then GoErr.noSuchBucket else GoErr.api e)
  | .ok out =>
    match out.errors with
    | (_, m) :: _ => some (GoErr.objectMsg m)
    | [] =>
      match out.deleted.getLast? with
      | none => none
      | some k => (waitRes k).map GoErr.api

/-- C9 (counterexample): the batch call succeeds with no per-object error and
one deleted key whose existence-negation wait fails; `DeleteObjects`
reassigns `err` in the wait loop and returns it, so the wait failure is
escalated into the result, contrary to the claim. -/
theorem delete_wait_error_returned_cex :
    ¬ ((DeleteObjects "b" (Except.ok ⟨[], ["k"]⟩) (fun _ => some ⟨false, "Timeout"⟩)).1 = none) := by
  decide

/-- C9 (amended): `DeleteObjects` returns, in the batch-error case, the typed
`NoSuchBucket` when matched and the raw error otherwise; in the per-object
error case, an error carrying the first object-level message; and in the
fully successful case the wait result of the LAST deleted key — wait failures
of earlier keys are only logged, but the final key's wait failure is
escalated into the returned result. -/
theorem delete_objects_error_characterization (b : String)
    (batchRes : Except S3ApiError DeleteOutput) (waitRes : String → Option S3ApiError) :
    (DeleteObjects b batchRes waitRes).1 = deleteErrSpec batchRes waitRes := by
  cases batchRes with
  | error e => by_cases h : e.noBucketMatch <;> simp [DeleteObjects, deleteErrSpec, h]
  | ok out =>
    rcases out with ⟨errs, deleted⟩
    cases errs with
    | cons p rest => cases p; simp [DeleteObjects, deleteErrSpec]
    | nil =>
      simp only [DeleteObjects, deleteErrSpec]
      rw [foldl_const_last (fun k => (waitRes k).map GoErr.api) none deleted]
      cases hd : deleted.getLast? <;> simp [hd]

/-- C10: `Retrieve` fails exactly when the configured S3 access key or access
secret key is the empty string, and otherwise returns credentials carrying
exactly the configured values. -/
theorem retrieve_credentials_spec (c : PandoraConfig) :
    (retrieveOk c = false ↔ (c.s3.accessKey = "" ∨ c.s3.accessSecretKey = "")) ∧
    (∀ cr : AwsCredentials, c.Retrieve = Except.ok cr →
      cr.accessKeyID = c.s3.accessKey ∧ cr.secretAccessKey = c.s3.accessSecretKey) := by
  constructor
  · by_cases h : c.s3.accessKey = "" ∨ c.s3.accessSecretKey = "" <;>
      simp [retrieveOk, PandoraConfig.Retrieve, h]
  · intro cr hcr
    simp only [PandoraConfig.Retrieve] at hcr
    by_cases h : c.s3.accessKey = "" ∨ c.s3.accessSecretKey = ""
    · rw [if_pos h] at hcr; cases hcr
    · rw [if_neg h] at hcr
      injection hcr with h2
      subst h2
      exact ⟨rfl, rfl⟩

/-- A concrete configuration with both credentials present. -/
def cfgW : PandoraConfig := ⟨"/r", ⟨"us", "", "b", "AK", "SK"⟩⟩

theorem retrieve_credentials_spec_witness :
    cfgW.Retrieve = Except.ok ⟨"AK", "SK"⟩ ∧
    (⟨"AK", "SK"⟩ : AwsCredentials).accessKeyID = cfgW.s3.accessKey ∧
    (⟨"AK", "SK"⟩ : AwsCredentials).secretAccessKey = cfgW.s3.accessSecretKey :=
  ⟨by rfl, (retrieve_credentials_spec cfgW).2 ⟨"AK", "SK"⟩ (by rfl)⟩
